import Mathlib

/-!
Shallow embedding of the LRC lyrics parsing / synchronization subsystem
(`src/services/lyrics.ts`) and of the quality-tiered URL selection logic
(`src/utils/helpers.ts`) of the Music45 repository.

Strings are modelled as `List Char`; JavaScript numbers are modelled as exact
rationals (`ℚ`) and exact integers (`ℤ`, `ℕ`), so decimal timestamp arithmetic
is exact.  The two global regular expressions of `lyrics.ts`,

  LRC_TIMESTAMP_REGEX = /\[(\d{1,2}):(\d{2}(?:\.\d+)?)\]/g
  METADATA_REGEX      = /\[(ti|ar|al|by|offset):[^\]]*\]/g

are embedded as deterministic single-position matchers (`matchTsAt`,
`metaMatchAt`) plus left-to-right scanners, which is exactly the leftmost
match / continue-after-the-match semantics of `matchAll`, `replace` and of a
`g`-flagged `test` (whose persistent `lastIndex` is made an explicit argument
in `isLrcFormatS`).
-/

namespace Music45

/-- The JS whitespace characters relevant to `String.prototype.trim`
(restricted to the code points that can occur in this development). -/
def isWs (c : Char) : Bool :=
  c = ' ' || c = '\t' || c = '\n' || c = '\r' ||
  c = Char.ofNat 11 || c = Char.ofNat 12 || c = Char.ofNat 160 || c = Char.ofNat 65279

/-- Model of `String.prototype.trim`: drop whitespace from both ends. -/
def jsTrim (s : List Char) : List Char :=
  ((s.dropWhile isWs).reverse.dropWhile isWs).reverse

/-- Model of `str.split('\n')`. -/
def splitNl : List Char → List (List Char)
  | [] => [[]]
  | c :: cs =>
    match splitNl cs with
    | [] => [[]]
    | h :: t => if c = '\n' then [] :: h :: t else (c :: h) :: t

/-- Maximal run of decimal digits at the head of the list (the behaviour of a
greedy `\d+` / `\d*`), together with the rest. -/
def takeDigits : List Char → List Char × List Char
  | [] => ([], [])
  | c :: cs =>
    if c.isDigit then
      let p := takeDigits cs
      (c :: p.1, p.2)
    else ([], c :: cs)

/-- Numeric value of a list of decimal digit characters
(`parseInt(s, 10)` on an all-digit string). -/
def digitsVal (l : List Char) : ℕ :=
  l.foldl (fun a c => 10 * a + (c.toNat - 48)) 0

/-- Attempt to match the tail `\d{2}(?:\.\d+)?\]` of the timestamp regex at the
head of the list (the part after the `:`).  Returns the text of capture
group 2 together with the number of characters consumed (including `]`). -/
def matchTsTail : List Char → Option (List Char × ℕ)
  | c :: d :: r2 =>
    if c.isDigit && d.isDigit then
      match r2 with
      | '.' :: r3 =>
        if (takeDigits r3).1 = [] then none
        else
          match (takeDigits r3).2 with
          | ']' :: _ => some (c :: d :: '.' :: (takeDigits r3).1, 4 + (takeDigits r3).1.length)
          | _ => none
      | ']' :: _ => some ([c, d], 3)
      | _ => none
    else none
  | _ => none

/-- Attempt to match `\[(\d{1,2}):(\d{2}(?:\.\d+)?)\]` at the head of the
list.  Returns (capture group 1, capture group 2, total match length).
The greedy `\d{1,2}` first tries two digits followed by `:`, then one digit
followed by `:`, exactly as the backtracking regex engine does. -/
def matchTsAt : List Char → Option (List Char × List Char × ℕ)
  | '[' :: a :: b :: r2 =>
    if a.isDigit then
      if b.isDigit then
        match r2 with
        | ':' :: r3 =>
          match matchTsTail r3 with
          | some p => some ([a, b], p.1, 4 + p.2)
          | none => none
        | _ => none
      else if b = ':' then
        match matchTsTail r2 with
        | some p => some ([a], p.1, 3 + p.2)
        | none => none
      else none
    else none
  | _ => none

/-- Worker for `tsMatches`, structurally recursive on a fuel argument. -/
def tsMatchesGo : ℕ → List Char → List (List Char × List Char)
  | _, [] => []
  | 0, _ :: _ => []
  | fuel + 1, c :: cs =>
    match matchTsAt (c :: cs) with
    | some (g1, g2, n) => (g1, g2) :: tsMatchesGo fuel ((c :: cs).drop n)
    | none => tsMatchesGo fuel cs

/-- All matches of `LRC_TIMESTAMP_REGEX` in a string, in order — the model of
`Array.from(line.matchAll(LRC_TIMESTAMP_REGEX))` (with `lastIndex` 0): scan
left to right, and continue after the end of each match.  Each element is
(capture group 1, capture group 2).  The fuel argument of the worker is only
a structural termination device; `length` fuel always suffices because every
step consumes at least one character. -/
def tsMatches (s : List Char) : List (List Char × List Char) :=
  tsMatchesGo s.length s

/-- Worker for `removeTs`, structurally recursive on a fuel argument. -/
def removeTsGo : ℕ → List Char → List Char
  | _, [] => []
  | 0, l => l
  | fuel + 1, c :: cs =>
    match matchTsAt (c :: cs) with
    | some (_, _, n) => removeTsGo fuel ((c :: cs).drop n)
    | none => c :: removeTsGo fuel cs

/-- Model of `line.replace(LRC_TIMESTAMP_REGEX, '')`: delete every match,
keep everything else. -/
def removeTs (s : List Char) : List Char :=
  removeTsGo s.length s

/-- Position and length of the first timestamp match at or after the start of
the given string, if any (the search performed by a `g`-flagged `exec`/`test`
starting at a given `lastIndex`). -/
def tsSearch : List Char → Option (ℕ × ℕ)
  | [] => none
  | c :: cs =>
    match matchTsAt (c :: cs) with
    | some p => some (0, p.2.2)
    | none => (tsSearch cs).map fun q => (q.1 + 1, q.2)

/-- If the 2-character literal `lit` followed by `':'` heads `r`, return the
rest; otherwise `none`.  Used for the alternatives of `METADATA_REGEX`. -/
def dropLit : List Char → List Char → Option (List Char)
  | [], r => some r
  | _ :: _, [] => none
  | c :: cs, d :: ds => if c = d then dropLit cs ds else none

/-- Number of characters consumed by a greedy `[^\]]*\]` at the head of the
list (everything up to and including the first `]`), if a `]` exists. -/
def scanToRBracket : List Char → Option ℕ
  | [] => none
  | c :: cs => if c = ']' then some 1 else (scanToRBracket cs).map (· + 1)

/-- One alternative of `METADATA_REGEX` after the opening `[`: the literal tag
name, then `:`, then `[^\]]*\]`.  Returns the number of characters consumed
(not counting the opening `[`). -/
def tryTag (lit rest : List Char) : Option ℕ :=
  match dropLit (lit ++ [':']) rest with
  | some r2 => (scanToRBracket r2).map fun k => lit.length + 1 + k
  | none => none

/-- Attempt to match `\[(ti|ar|al|by|offset):[^\]]*\]` at the head of the
list; returns the total match length.  The five alternatives are mutually
exclusive (none is a prefix of another), so trying them in order is exactly
the regex alternation semantics. -/
def metaMatchAt : List Char → Option ℕ
  | '[' :: rest =>
    (((((tryTag ['t', 'i'] rest).orElse fun _ => tryTag ['a', 'r'] rest).orElse
        fun _ => tryTag ['a', 'l'] rest).orElse
        fun _ => tryTag ['b', 'y'] rest).orElse
        fun _ => tryTag ['o', 'f', 'f', 's', 'e', 't'] rest).map (· + 1)
  | _ => none

/-- Worker for `removeMeta`, structurally recursive on a fuel argument. -/
def removeMetaGo : ℕ → List Char → List Char
  | _, [] => []
  | 0, l => l
  | fuel + 1, c :: cs =>
    match metaMatchAt (c :: cs) with
    | some n => removeMetaGo fuel ((c :: cs).drop n)
    | none => c :: removeMetaGo fuel cs

/-- Model of `line.replace(METADATA_REGEX, '')`. -/
def removeMeta (s : List Char) : List Char :=
  removeMetaGo s.length s

/-- A parsed lyrics line: `{ time: number, text: string }`. -/
structure LyricsLine where
  time : ℚ
  text : List Char
deriving DecidableEq, Repr

/-- Value of capture group 2 of the timestamp regex under `parseFloat`:
either `dd` or `dd.d+`, read as an exact rational. -/
def ratOfGroup2 : List Char → ℚ
  | a :: b :: '.' :: fs => (digitsVal [a, b] : ℚ) + (digitsVal fs : ℚ) / ((10 : ℚ) ^ fs.length)
  | g => (digitsVal g : ℚ)

/-- Stable insertion of a line into a (sorted) accumulator: the new element
goes after every element whose time is not greater. -/
def insertLine (x : LyricsLine) : List LyricsLine → List LyricsLine
  | [] => [x]
  | y :: ys => if x.time < y.time then x :: y :: ys else y :: insertLine x ys

/-- Model of `parsedLines.sort((a, b) => a.time - b.time)` — a stable
ascending sort by `time` (JS `Array.prototype.sort` is stable). -/
def sortLines (l : List LyricsLine) : List LyricsLine :=
  l.foldl (fun acc x => insertLine x acc) []

/-- The `LyricsLine` entries contributed by one physical line of the input,
exactly as in the body of the `forEach` of `parseLrcLyrics`: metadata-stripped
trim must be non-empty, at least one timestamp must match, and every timestamp
yields one entry whose text is the raw line with the timestamps removed
(note: the source computes `text` from `line`, not from `cleanLine`). -/
def lineEntries (line : List Char) : List LyricsLine :=
  if jsTrim (removeMeta line) = [] then []
  else
    match tsMatches line with
    | [] => []
    | ts =>
      ts.map fun m => ⟨(digitsVal m.1 : ℚ) * 60 + ratOfGroup2 m.2, jsTrim (removeTs line)⟩

/-- The entries of all physical lines in encounter order (the `parsedLines`
array of the source just before sorting). -/
def rawEntries (s : List Char) : List LyricsLine :=
  (splitNl s).flatMap lineEntries

/-- Model of `parseLrcLyrics`. -/
def parseLrcLyrics (s : List Char) : List LyricsLine :=
  if s = [] then [] else sortLines (rawEntries s)

/-- Model of `isLrcFormat` as actually executed: `LRC_TIMESTAMP_REGEX` is a
`g`-flagged global regex, so `test` starts searching at the regex object's
persistent `lastIndex`, sets it to the end of the match on success and resets
it to 0 on failure.  The hidden shared state is made explicit: the function
maps (input, lastIndex) to (result, new lastIndex). -/
def isLrcFormatS (s : List Char) (lastIndex : ℕ) : Bool × ℕ :=
  if s = [] then (false, lastIndex)
  else
    match tsSearch (s.drop lastIndex) with
    | some q => (true, lastIndex + q.1 + q.2)
    | none => (false, 0)

/-- The pure containment predicate the specification describes: the string
has at least one well-formed timestamp pattern. -/
def hasTsPattern (s : List Char) : Bool :=
  (tsSearch s).isSome

/-- Default `LyricsLine`, used only to express JS array indexing. -/
def dLine : LyricsLine := ⟨0, []⟩

/-- The backward loop of `findActiveLine`: `i` counts how many indices from
the front are still unexamined; the loop looks at index `i - 1` first and
walks down, returning the first (that is, largest) index whose `time` is at
most `currentTime`. -/
def findActiveGo (l : List LyricsLine) (t : ℚ) : ℕ → ℤ
  | 0 => -1
  | i + 1 => if (l.getD i dLine).time ≤ t then (i : ℤ) else findActiveGo l t i

/-- Model of `findActiveLine`. -/
def findActiveLine (l : List LyricsLine) (t : ℚ) : ℤ :=
  if l = [] then -1 else findActiveGo l t l.length

/-- Model of `getLyricsWindow` (the `slice(start, end)` is the elements with
indices in `[start, end)`). -/
def getLyricsWindow (l : List LyricsLine) (currentIndex : ℤ) (windowSize : ℤ) :
    List LyricsLine :=
  if l = [] ∨ currentIndex < 0 then []
  else
    (l.take (min (l.length : ℤ) (currentIndex + windowSize + 1)).toNat).drop
      (max 0 (currentIndex - windowSize)).toNat

/-- Model of `applyOffset`. -/
def applyOffset (l : List LyricsLine) (offsetMs : ℚ) : List LyricsLine :=
  if l = [] then []
  else l.map fun e => ⟨max 0 (e.time + offsetMs / 1000), e.text⟩

/-- Decimal digit character. -/
def digitChar : ℕ → Char
  | 0 => '0' | 1 => '1' | 2 => '2' | 3 => '3' | 4 => '4'
  | 5 => '5' | 6 => '6' | 7 => '7' | 8 => '8' | 9 => '9'
  | _ => '*'

/-- Worker for `natToChars`, structurally recursive on a fuel argument. -/
def natToCharsGo : ℕ → ℕ → List Char
  | 0, n => [digitChar n]
  | fuel + 1, n =>
    if n < 10 then [digitChar n]
    else natToCharsGo fuel (n / 10) ++ [digitChar (n % 10)]

/-- Decimal representation of a natural number (`Number.prototype.toString`
for non-negative integers). -/
def natToChars (n : ℕ) : List Char :=
  natToCharsGo n n

/-- Decimal representation of an integer (`Number.prototype.toString` for
integral values). -/
def intToChars (i : ℤ) : List Char :=
  if i < 0 then '-' :: natToChars (-i).toNat else natToChars i.toNat

/-- Model of `str.padStart(2, '0')`. -/
def padStart2 (l : List Char) : List Char :=
  List.replicate (2 - l.length) '0' ++ l

/-- Truncation toward zero, as used by the JS `%` operator. -/
def ratTrunc (q : ℚ) : ℤ :=
  if 0 ≤ q then ⌊q⌋ else -⌊-q⌋

/-- The JS remainder operator `a % b` on numbers (truncated division). -/
def jsMod (a b : ℚ) : ℚ :=
  a - b * ratTrunc (a / b)

/-- Model of `formatLyricsTime`. -/
def formatLyricsTime (t : ℚ) : List Char :=
  padStart2 (intToChars ⌊t / 60⌋) ++
    ':' :: (padStart2 (intToChars ⌊jsMod t 60⌋) ++
      '.' :: padStart2 (intToChars ⌊jsMod t 1 * 100⌋))

/-- Model of `arr.join('\n')`. -/
def joinNl : List (List Char) → List Char
  | [] => []
  | [a] => a
  | a :: rest => a ++ '\n' :: joinNl rest

/-- Model of `toLrcFormat`. -/
def toLrcFormat (l : List LyricsLine) : List Char :=
  if l = [] then []
  else joinNl (l.map fun e => '[' :: (formatLyricsTime e.time ++ ']' :: e.text))

/-- Attempt to match `\[offset:(-?\d+)\]` at the head of the list, returning
the value of `parseInt` on capture group 1. -/
def offsetMatchAt (s : List Char) : Option ℤ :=
  match dropLit ['[', 'o', 'f', 'f', 's', 'e', 't', ':'] s with
  | some r =>
    match r with
    | '-' :: r2 =>
      if (takeDigits r2).1 = [] then none
      else
        match (takeDigits r2).2 with
        | ']' :: _ => some (-(digitsVal (takeDigits r2).1 : ℤ))
        | _ => none
    | _ =>
      if (takeDigits r).1 = [] then none
      else
        match (takeDigits r).2 with
        | ']' :: _ => some ((digitsVal (takeDigits r).1 : ℤ))
        | _ => none
  | none => none

/-- Left-to-right search for the first `\[offset:(-?\d+)\]` match
(`lrcText.match(...)` with a non-global regex). -/
def extractOffsetGo : List Char → ℤ
  | [] => 0
  | c :: cs =>
    match offsetMatchAt (c :: cs) with
    | some v => v
    | none => extractOffsetGo cs

/-- Model of `extractOffset`. -/
def extractOffset (s : List Char) : ℤ :=
  if s = [] then 0 else extractOffsetGo s

/-- A download candidate (`DownloadUrl` of `src/types`): absent or empty
string fields are both modelled as `[]`, since both are falsy under `||`. -/
structure DownloadUrl where
  quality : List Char
  link : List Char
  url : List Char
deriving DecidableEq, Repr

/-- Whether `needle` matches at the head of `hay`. -/
def headMatches : List Char → List Char → Bool
  | [], _ => true
  | _ :: _, [] => false
  | c :: cs, d :: ds => c = d && headMatches cs ds

/-- Whether `needle` occurs contiguously inside `hay` (substring test). -/
def containsSeq (needle : List Char) : List Char → Bool
  | [] => needle.isEmpty
  | c :: cs => headMatches needle (c :: cs) || containsSeq needle cs

/-- The JS expression `u.link || u.url || null`. -/
def linkOrUrl (u : DownloadUrl) : Option (List Char) :=
  if u.link ≠ [] then some u.link else if u.url ≠ [] then some u.url else none

/-- The `qualityMap` record of `getUrlByQuality`; an unrecognized key and the
`auto` key both produce a falsy value (`undefined` and `''`), modelled
uniformly as `[]`. -/
def qualityMap (q : List Char) : List Char :=
  if q = ("Less_low").toList then ("48").toList
  else if q = ("low").toList then ("96").toList
  else if q = ("medium").toList then ("160").toList
  else if q = ("high").toList then ("320").toList
  else []

/-- Model of `getUrlByQuality`.  `new RegExp(targetBitrate, 'i').test(q)`
with an all-digit pattern is exactly substring containment.  The source
indexes `downloadUrls[downloadUrls.length - 1]`; its callers guarantee a
non-empty list, and the model uses the last element with a dummy default. -/
def getUrlByQuality (l : List DownloadUrl) (quality : List Char) :
    Option (List Char) :=
  if quality = ("auto").toList then linkOrUrl (l.getLastD ⟨[], [], []⟩)
  else
    if qualityMap quality ≠ [] then
      match l.find? (fun u => decide (u.quality ≠ []) && containsSeq (qualityMap quality) u.quality) with
      | some m => linkOrUrl m
      | none => linkOrUrl (l.getLastD ⟨[], [], []⟩)
    else linkOrUrl (l.getLastD ⟨[], [], []⟩)

/-- The fields of `Song` that `extractPlayableUrl` reads; a missing download
array is `none` (note a present-but-empty array is truthy in JS, hence
`Option (List _)` rather than just a list). -/
structure Song where
  downloadUrl : Option (List DownloadUrl)
  download_url : Option (List DownloadUrl)
  media_url : List Char
  url : List Char
  audio : List Char

/-- The fallback `media_url || url || audio || null`. -/
def directUrl (s : Song) : Option (List Char) :=
  if s.media_url ≠ [] then some s.media_url
  else if s.url ≠ [] then some s.url
  else if s.audio ≠ [] then some s.audio
  else none

/-- Model of `extractPlayableUrl`. -/
def extractPlayableUrl (sd : Option Song) (quality : List Char) :
    Option (List Char) :=
  match sd with
  | none => none
  | some s =>
    match s.downloadUrl.orElse fun _ => s.download_url with
    | some dls => if 0 < dls.length then getUrlByQuality dls quality else directUrl s
    | none => directUrl s

/-! ## Basic facts about the matchers and scanners -/

theorem matchTsTail_pos {r : List Char} {g : List Char} {n : ℕ}
    (h : matchTsTail r = some (g, n)) : 0 < n := by
  unfold matchTsTail at h
  repeat' split at h
  all_goals simp only [Option.some.injEq, Prod.mk.injEq, reduceCtorEq] at h
  all_goals omega

theorem matchTsAt_pos {s : List Char} {g1 g2 : List Char} {n : ℕ}
    (h : matchTsAt s = some (g1, g2, n)) : 0 < n := by
  unfold matchTsAt matchTsTail at h
  repeat' split at h
  all_goals simp only [Option.some.injEq, Prod.mk.injEq, reduceCtorEq] at h
  all_goals omega

theorem metaMatchAt_pos {s : List Char} {n : ℕ}
    (h : metaMatchAt s = some n) : 0 < n := by
  unfold metaMatchAt at h
  split at h
  · rename_i rest
    cases ho : ((((tryTag ['t', 'i'] rest).orElse fun _ => tryTag ['a', 'r'] rest).orElse
        fun _ => tryTag ['a', 'l'] rest).orElse
        fun _ => tryTag ['b', 'y'] rest).orElse
        fun _ => tryTag ['o', 'f', 'f', 's', 'e', 't'] rest with
    | none => rw [ho] at h; exact absurd h (by simp)
    | some m => rw [ho] at h; simp only [Option.map_some', Option.some.injEq] at h; omega
  · exact absurd h (by simp)

theorem tsMatchesGo_congr {f1 : ℕ} {s : List Char} (f2 : ℕ)
    (h1 : s.length ≤ f1) (h2 : s.length ≤ f2) :
    tsMatchesGo f1 s = tsMatchesGo f2 s := by
  induction f1 generalizing s f2 with
  | zero =>
    have : s = [] := by cases s <;> simp_all
    subst this
    cases f2 <;> rfl
  | succ f1 ih =>
    cases s with
    | nil => cases f2 <;> rfl
    | cons c cs =>
      obtain ⟨f2', rfl⟩ : ∃ k, f2 = k + 1 := by
        cases f2 with
        | zero => simp at h2
        | succ k => exact ⟨k, rfl⟩
      rw [tsMatchesGo, tsMatchesGo]
      cases hm : matchTsAt (c :: cs) with
      | some p =>
        obtain ⟨g1, g2, n⟩ := p
        have hn := matchTsAt_pos hm
        have hl : ((c :: cs).drop n).length ≤ f1 := by
          simp only [List.length_drop, List.length_cons]
          simp only [List.length_cons] at h1
          omega
        have hl2 : ((c :: cs).drop n).length ≤ f2' := by
          simp only [List.length_drop, List.length_cons]
          simp only [List.length_cons] at h2
          omega
        dsimp only
        rw [ih _ hl hl2]
      | none =>
        have hl : cs.length ≤ f1 := by simp only [List.length_cons] at h1; omega
        have hl2 : cs.length ≤ f2' := by simp only [List.length_cons] at h2; omega
        dsimp only
        rw [ih _ hl hl2]

theorem removeTsGo_congr {f1 : ℕ} {s : List Char} (f2 : ℕ)
    (h1 : s.length ≤ f1) (h2 : s.length ≤ f2) :
    removeTsGo f1 s = removeTsGo f2 s := by
  induction f1 generalizing s f2 with
  | zero =>
    have : s = [] := by cases s <;> simp_all
    subst this
    cases f2 <;> rfl
  | succ f1 ih =>
    cases s with
    | nil => cases f2 <;> rfl
    | cons c cs =>
      obtain ⟨f2', rfl⟩ : ∃ k, f2 = k + 1 := by
        cases f2 with
        | zero => simp at h2
        | succ k => exact ⟨k, rfl⟩
      rw [removeTsGo, removeTsGo]
      cases hm : matchTsAt (c :: cs) with
      | some p =>
        obtain ⟨g1, g2, n⟩ := p
        have hn := matchTsAt_pos hm
        have hl : ((c :: cs).drop n).length ≤ f1 := by
          simp only [List.length_drop, List.length_cons]
          simp only [List.length_cons] at h1
          omega
        have hl2 : ((c :: cs).drop n).length ≤ f2' := by
          simp only [List.length_drop, List.length_cons]
          simp only [List.length_cons] at h2
          omega
        dsimp only
        rw [ih _ hl hl2]
      | none =>
        have hl : cs.length ≤ f1 := by simp only [List.length_cons] at h1; omega
        have hl2 : cs.length ≤ f2' := by simp only [List.length_cons] at h2; omega
        dsimp only
        rw [ih _ hl hl2]

theorem removeMetaGo_congr {f1 : ℕ} {s : List Char} (f2 : ℕ)
    (h1 : s.length ≤ f1) (h2 : s.length ≤ f2) :
    removeMetaGo f1 s = removeMetaGo f2 s := by
  induction f1 generalizing s f2 with
  | zero =>
    have : s = [] := by cases s <;> simp_all
    subst this
    cases f2 <;> rfl
  | succ f1 ih =>
    cases s with
    | nil => cases f2 <;> rfl
    | cons c cs =>
      obtain ⟨f2', rfl⟩ : ∃ k, f2 = k + 1 := by
        cases f2 with
        | zero => simp at h2
        | succ k => exact ⟨k, rfl⟩
      rw [removeMetaGo, removeMetaGo]
      cases hm : metaMatchAt (c :: cs) with
      | some n =>
        have hn := metaMatchAt_pos hm
        have hl : ((c :: cs).drop n).length ≤ f1 := by
          simp only [List.length_drop, List.length_cons]
          simp only [List.length_cons] at h1
          omega
        have hl2 : ((c :: cs).drop n).length ≤ f2' := by
          simp only [List.length_drop, List.length_cons]
          simp only [List.length_cons] at h2
          omega
        dsimp only
        rw [ih _ hl hl2]
      | none =>
        have hl : cs.length ≤ f1 := by simp only [List.length_cons] at h1; omega
        have hl2 : cs.length ≤ f2' := by simp only [List.length_cons] at h2; omega
        dsimp only
        rw [ih _ hl hl2]

theorem matchTsAt_nil : matchTsAt [] = none := rfl

theorem matchTsAt_none_of_ne {c : Char} {r : List Char} (h : c ≠ '[') :
    matchTsAt (c :: r) = none := by
  unfold matchTsAt
  split
  · rename_i heq
    exact absurd (List.head_eq_of_cons_eq heq.symm).symm h
  · rfl

theorem metaMatchAt_none_of_ne {c : Char} {r : List Char} (h : c ≠ '[') :
    metaMatchAt (c :: r) = none := by
  unfold metaMatchAt
  split
  · rename_i heq
    exact absurd (List.head_eq_of_cons_eq heq.symm).symm h
  · rfl

theorem tsMatches_nil : tsMatches [] = [] := rfl

theorem tsMatches_cons_some {c : Char} {cs g1 g2 : List Char} {n : ℕ}
    (h : matchTsAt (c :: cs) = some (g1, g2, n)) :
    tsMatches (c :: cs) = (g1, g2) :: tsMatches ((c :: cs).drop n) := by
  have hn := matchTsAt_pos h
  have hlen : ((c :: cs).drop n).length ≤ cs.length := by
    simp only [List.length_drop, List.length_cons]; omega
  unfold tsMatches
  rw [show (c :: cs).length = cs.length + 1 from rfl, tsMatchesGo, h]
  dsimp only
  rw [tsMatchesGo_congr ((c :: cs).drop n).length hlen (le_refl _)]

theorem tsMatches_cons_none {c : Char} {cs : List Char}
    (h : matchTsAt (c :: cs) = none) :
    tsMatches (c :: cs) = tsMatches cs := by
  unfold tsMatches
  rw [show (c :: cs).length = cs.length + 1 from rfl, tsMatchesGo, h]

theorem removeTs_nil : removeTs [] = [] := rfl

theorem removeTs_cons_some {c : Char} {cs g1 g2 : List Char} {n : ℕ}
    (h : matchTsAt (c :: cs) = some (g1, g2, n)) :
    removeTs (c :: cs) = removeTs ((c :: cs).drop n) := by
  have hn := matchTsAt_pos h
  have hlen : ((c :: cs).drop n).length ≤ cs.length := by
    simp only [List.length_drop, List.length_cons]; omega
  unfold removeTs
  rw [show (c :: cs).length = cs.length + 1 from rfl, removeTsGo, h]
  dsimp only
  rw [removeTsGo_congr ((c :: cs).drop n).length hlen (le_refl _)]

theorem removeTs_cons_none {c : Char} {cs : List Char}
    (h : matchTsAt (c :: cs) = none) :
    removeTs (c :: cs) = c :: removeTs cs := by
  unfold removeTs
  rw [show (c :: cs).length = cs.length + 1 from rfl, removeTsGo, h]

theorem removeMeta_nil : removeMeta [] = [] := rfl

theorem removeMeta_cons_some {c : Char} {cs : List Char} {n : ℕ}
    (h : metaMatchAt (c :: cs) = some n) :
    removeMeta (c :: cs) = removeMeta ((c :: cs).drop n) := by
  have hn := metaMatchAt_pos h
  have hlen : ((c :: cs).drop n).length ≤ cs.length := by
    simp only [List.length_drop, List.length_cons]; omega
  unfold removeMeta
  rw [show (c :: cs).length = cs.length + 1 from rfl, removeMetaGo, h]
  dsimp only
  rw [removeMetaGo_congr ((c :: cs).drop n).length hlen (le_refl _)]

theorem removeMeta_cons_none {c : Char} {cs : List Char}
    (h : metaMatchAt (c :: cs) = none) :
    removeMeta (c :: cs) = c :: removeMeta cs := by
  unfold removeMeta
  rw [show (c :: cs).length = cs.length + 1 from rfl, removeMetaGo, h]

/-- A string in which the timestamp regex matches at no position has no
matches at all. -/
theorem tsMatches_eq_nil {s : List Char}
    (h : ∀ i, matchTsAt (s.drop i) = none) : tsMatches s = [] := by
  induction s with
  | nil => rfl
  | cons c cs ih =>
    rw [tsMatches_cons_none (by simpa using h 0)]
    exact ih fun i => by simpa using h (i + 1)

/-- `replace(LRC_TIMESTAMP_REGEX, '')` is the identity on strings in which
the timestamp regex matches at no position. -/
theorem removeTs_eq_self {s : List Char}
    (h : ∀ i, matchTsAt (s.drop i) = none) : removeTs s = s := by
  induction s with
  | nil => rfl
  | cons c cs ih =>
    rw [removeTs_cons_none (by simpa using h 0)]
    exact congrArg (c :: ·) (ih fun i => by simpa using h (i + 1))

/-- `replace(METADATA_REGEX, '')` is the identity on strings in which the
metadata regex matches at no position. -/
theorem removeMeta_eq_self {s : List Char}
    (h : ∀ i, metaMatchAt (s.drop i) = none) : removeMeta s = s := by
  induction s with
  | nil => rfl
  | cons c cs ih =>
    rw [removeMeta_cons_none (by simpa using h 0)]
    exact congrArg (c :: ·) (ih fun i => by simpa using h (i + 1))

theorem lineEntries_eq_nil_of_noTs {line : List Char}
    (h : tsMatches line = []) : lineEntries line = [] := by
  unfold lineEntries
  split
  · rfl
  · rw [h]

theorem flatMap_eq_nil_of {α β : Type} {l : List α} {f : α → List β}
    (h : ∀ x ∈ l, f x = []) : l.flatMap f = [] := by
  induction l with
  | nil => rfl
  | cons a t ih =>
    simp only [List.flatMap_cons, h a (by simp), List.nil_append]
    exact ih fun x hx => h x (by simp [hx])

/-! ## Claim theorems (C6, C7, C8) -/

/-- C7: `parseLrcLyrics` is a total function of its input (the embedding is a
total Lean function, mirroring the absence of any `throw` in the source): it
returns `[]` on the empty string, and on any input none of whose lines
contains a well-formed timestamp pattern — plain untimed, malformed or
invalid-timestamp text included — it returns the empty sequence. -/
theorem parseLrcLyrics_total (s : List Char)
    (h : ∀ line ∈ splitNl s, tsMatches line = []) :
    parseLrcLyrics [] = [] ∧ parseLrcLyrics s = [] := by
  refine ⟨rfl, ?_⟩
  unfold parseLrcLyrics
  split
  · rfl
  · unfold rawEntries
    rw [flatMap_eq_nil_of fun line hl => lineEntries_eq_nil_of_noTs (h line hl)]
    rfl

/-- C7 witness: concrete evaluation on `"plain line with no tags"`. -/
theorem parseLrcLyrics_total_witness :
    parseLrcLyrics [] = [] ∧ parseLrcLyrics (("plain line with no tags").toList) = [] :=
  parseLrcLyrics_total (("plain line with no tags").toList) (by decide)

/-- C6: `applyOffset` maps each line to a line with time
`max 0 (time + offsetMs / 1000)` and unchanged text; the result has the same
length, no time is negative, and a line at 2.0s shifted by −5000ms lands on
0 (clamped).  The input is untouched: the embedding is a pure function and
the source allocates a fresh array of fresh objects via `map`. -/
theorem applyOffset_spec (l : List LyricsLine) (offsetMs : ℚ) :
    applyOffset l offsetMs
        = l.map (fun e => ⟨max 0 (e.time + offsetMs / 1000), e.text⟩) ∧
    (applyOffset l offsetMs).length = l.length ∧
    (∀ e ∈ applyOffset l offsetMs, 0 ≤ e.time) ∧
    applyOffset [⟨2, []⟩] (-5000) = [⟨0, []⟩] := by
  have hmain : applyOffset l offsetMs
      = l.map (fun e => ⟨max 0 (e.time + offsetMs / 1000), e.text⟩) := by
    unfold applyOffset
    split
    · rename_i hl; rw [hl]; rfl
    · rfl
  refine ⟨hmain, by rw [hmain]; exact l.length_map _, ?_, ?_⟩
  · intro e he
    rw [hmain] at he
    obtain ⟨x, -, hx⟩ := List.mem_map.mp he
    rw [← hx]
    exact le_max_left 0 _
  · unfold applyOffset
    norm_num

/-- C8: for a non-negative index `i` and radius `w`, `getLyricsWindow`
returns exactly the slice of the list from `max 0 (i − w)` (inclusive) to
`min length (i + w + 1)` (exclusive), in original order. -/
theorem getLyricsWindow_spec (l : List LyricsLine) (i w : ℕ) :
    getLyricsWindow l (i : ℤ) (w : ℤ)
      = (l.take (min l.length (i + w + 1))).drop (i - w) := by
  unfold getLyricsWindow
  split
  · rename_i hg
    rcases hg with hg | hg
    · rw [hg]; simp
    · omega
  · have h1 : (min ((l.length : ℤ)) ((i : ℤ) + (w : ℤ) + 1)).toNat
        = min l.length (i + w + 1) := by omega
    have h2 : (max 0 ((i : ℤ) - (w : ℤ))).toNat = i - w := by omega
    rw [h1, h2]

/-! ## Claim theorems: the two regex-state / metadata bugs (C1, C2) and the
timestamp-swallowing counterexample (C4) -/

/-- C1: the claim is false on the code.  `isLrcFormat` calls `test` on the
`g`-flagged module-level `LRC_TIMESTAMP_REGEX`, so the regex object's
`lastIndex` persists between calls: on `"[00:01.00]Hello"` the first call
returns `true` and leaves `lastIndex = 10`, and the second call on the very
same string resumes at index 10, finds no further match and returns `false`.
The pure containment predicate (`hasTsPattern`) is `true` for this string, so
the two successive calls are not equal and the result is not determined by
the input alone. -/
theorem isLrcFormat_shared_state_bug :
    hasTsPattern (("[00:01.00]Hello").toList) = true ∧
    isLrcFormatS (("[00:01.00]Hello").toList) 0 = (true, 10) ∧
    isLrcFormatS (("[00:01.00]Hello").toList) 10 = (false, 0) := by
  with_unfolding_all decide

/-- C2: the claim is false on the code.  `parseLrcLyrics` computes the
emitted text as `line.replace(LRC_TIMESTAMP_REGEX, '').trim()` from the raw
`line`, not from the metadata-stripped `cleanLine`, so on
`"[00:01.00][ti:Song Name]Hello"` the single emitted entry has text
`"[ti:Song Name]Hello"`, which still contains the `[ti:...]` metadata tag
(witnessed by the metadata matcher succeeding on it, with match length 14). -/
theorem parseLrc_metadata_in_text_bug :
    parseLrcLyrics (("[00:01.00][ti:Song Name]Hello").toList)
      = [⟨1, ("[ti:Song Name]Hello").toList⟩] ∧
    metaMatchAt (("[ti:Song Name]Hello").toList) = some 14 := by
  with_unfolding_all decide

/-- C4 counterexample: the input `"[ti:x[00:01.00]"` is a single physical
line (no newline) that carries exactly one well-formed timestamp tag, yet
`parseLrcLyrics` emits no entry for it: the metadata pattern
`\[ti:[^\]]*\]` swallows the whole line (its `[^\]]*` runs up to the
timestamp's closing bracket), `cleanLine` becomes empty, and the line is
skipped. -/
theorem parseLrc_timestamp_swallowed_cex :
    parseLrcLyrics (("[ti:x[00:01.00]").toList) = [] ∧
    splitNl (("[ti:x[00:01.00]").toList) = [("[ti:x[00:01.00]").toList] ∧
    (tsMatches (("[ti:x[00:01.00]").toList)).length = 1 := by
  with_unfolding_all decide

/-! ## URL selection (C3) -/

theorem linkOrUrl_of_good {u : DownloadUrl} (h : u.link ≠ [] ∨ u.url ≠ []) :
    ∃ r, linkOrUrl u = some r ∧ r ≠ [] := by
  unfold linkOrUrl
  by_cases hl : u.link = []
  · rcases h with h | h
    · exact absurd hl h
    · exact ⟨u.url, by simp [hl, h], h⟩
  · exact ⟨u.link, by simp [hl], hl⟩

theorem getLastD_mem {l : List DownloadUrl} (d : DownloadUrl) (h : l ≠ []) :
    l.getLastD d ∈ l := by
  induction l with
  | nil => exact absurd rfl h
  | cons a t ih =>
    cases t with
    | nil => simp [List.getLastD]
    | cons b u =>
      rw [List.getLastD_cons]
      exact List.mem_cons_of_mem a (ih (by simp))

/-- C3 counterexample: the claim is false as stated.  A non-empty candidate
list whose (unique, hence also last and matching) entry has empty `link` and
`url` fields makes `getUrlByQuality` — and `extractPlayableUrl` through it —
return `null`: `lastUrl.link || lastUrl.url || null` falls through to
`null`, with no further fallback. -/
theorem getUrlByQuality_null_cex :
    getUrlByQuality [⟨("320kbps").toList, [], []⟩] (("auto").toList) = none ∧
    extractPlayableUrl
        (some ⟨some [⟨("320kbps").toList, [], []⟩], none, [], [], []⟩)
        (("auto").toList) = none := by
  with_unfolding_all decide

/-- C3 (amended): for a non-empty candidate list in which every candidate
has a non-empty `link` or `url` field, `getUrlByQuality` returns `some` of a
non-empty URL; the result is the `link || url` of the first candidate whose
quality tag contains the mapped bitrate substring when the tier is mapped and
such a candidate exists, and the `link || url` of the last candidate when the
tier is `auto`, unmapped (unrecognized), or unmatched. -/
theorem getUrlByQuality_amended (l : List DownloadUrl) (q : List Char)
    (hne : l ≠ []) (hgood : ∀ u ∈ l, u.link ≠ [] ∨ u.url ≠ []) :
    (∃ r, getUrlByQuality l q = some r ∧ r ≠ []) ∧
    (∀ m, q ≠ ("auto").toList → qualityMap q ≠ [] →
      l.find? (fun u => decide (u.quality ≠ []) && containsSeq (qualityMap q) u.quality)
        = some m →
      getUrlByQuality l q = linkOrUrl m) ∧
    ((q = ("auto").toList ∨ qualityMap q = [] ∨
      l.find? (fun u => decide (u.quality ≠ []) && containsSeq (qualityMap q) u.quality)
        = none) →
      getUrlByQuality l q = linkOrUrl (l.getLastD ⟨[], [], []⟩)) := by
  have hlast := getLastD_mem ⟨[], [], []⟩ hne
  refine ⟨?_, ?_, ?_⟩
  · unfold getUrlByQuality
    by_cases hq : q = ("auto").toList
    · rw [if_pos hq]
      exact linkOrUrl_of_good (hgood _ hlast)
    · rw [if_neg hq]
      by_cases hm : qualityMap q ≠ []
      · rw [if_pos hm]
        cases hf : l.find?
            (fun u => decide (u.quality ≠ []) && containsSeq (qualityMap q) u.quality) with
        | some m =>
          exact linkOrUrl_of_good (hgood _ (List.mem_of_find?_eq_some hf))
        | none =>
          exact linkOrUrl_of_good (hgood _ hlast)
      · rw [if_neg hm]
        exact linkOrUrl_of_good (hgood _ hlast)
  · intro m hq hmap hf
    unfold getUrlByQuality
    rw [if_neg hq, if_pos hmap, hf]
  · intro hcase
    unfold getUrlByQuality
    by_cases hq : q = ("auto").toList
    · rw [if_pos hq]
    · rw [if_neg hq]
      by_cases hm : qualityMap q ≠ []
      · rw [if_pos hm]
        rcases hcase with hcase | hcase | hcase
        · exact absurd hcase hq
        · exact absurd hcase hm
        · rw [hcase]
      · rw [if_neg hm]

/-- C3 witness: the amended theorem applied to the specification's own
example list with tier `high` (and every hypothesis discharged there). -/
theorem getUrlByQuality_amended_witness :
    ∃ r, getUrlByQuality
        [⟨("48kbps").toList, ("a").toList, []⟩, ⟨("320kbps").toList, ("b").toList, []⟩]
        (("high").toList) = some r ∧ r ≠ [] :=
  (getUrlByQuality_amended
      [⟨("48kbps").toList, ("a").toList, []⟩, ⟨("320kbps").toList, ("b").toList, []⟩]
      (("high").toList) (by decide) (by decide)).1

/-! ## Offset extraction (C10) -/

theorem offsetMatchAt_nil : offsetMatchAt [] = none := rfl

theorem extractOffsetGo_eq_zero {s : List Char}
    (h : ∀ i, offsetMatchAt (s.drop i) = none) : extractOffsetGo s = 0 := by
  induction s with
  | nil => rfl
  | cons c cs ih =>
    have h0 : offsetMatchAt (c :: cs) = none := by simpa using h 0
    unfold extractOffsetGo
    rw [h0]
    exact ih fun i => by simpa using h (i + 1)

theorem extractOffsetGo_eq_some {s : List Char} :
    ∀ i v, offsetMatchAt (s.drop i) = some v →
      (∀ j, j < i → offsetMatchAt (s.drop j) = none) → extractOffsetGo s = v := by
  induction s with
  | nil =>
    intro i v h _
    rw [List.drop_nil] at h
    exact absurd h (by simp [offsetMatchAt_nil])
  | cons c cs ih =>
    intro i v h hnone
    cases i with
    | zero =>
      rw [List.drop_zero] at h
      unfold extractOffsetGo
      rw [h]
    | succ i =>
      have h0 : offsetMatchAt (c :: cs) = none := by simpa using hnone 0 (by omega)
      unfold extractOffsetGo
      rw [h0]
      exact ih i v (by simpa using h)
        fun j hj => by simpa using hnone (j + 1) (by omega)

/-- C10: `extractOffset` returns the (possibly negative) integer value of the
first well-formed `[offset:N]` tag — the match at the least position — and
returns 0 when no position of the input matches (in particular on the empty
string); the embedding is a total function, mirroring that the source cannot
throw. -/
theorem extractOffset_spec (s : List Char) :
    ((∀ i, offsetMatchAt (s.drop i) = none) → extractOffset s = 0) ∧
    (∀ i v, offsetMatchAt (s.drop i) = some v →
      (∀ j, j < i → offsetMatchAt (s.drop j) = none) → extractOffset s = v) := by
  constructor
  · intro h
    unfold extractOffset
    split
    · rfl
    · exact extractOffsetGo_eq_zero h
  · intro i v h hnone
    unfold extractOffset
    split
    · rename_i hs
      subst hs
      rw [List.drop_nil] at h
      exact absurd h (by simp [offsetMatchAt_nil])
    · exact extractOffsetGo_eq_some i v h hnone

/-- C10 witness: the first offset tag of `"a[offset:-12]b[offset:7]c"` sits
at position 1 and has value −12. -/
theorem extractOffset_spec_witness :
    extractOffset (("a[offset:-12]b[offset:7]c").toList) = -12 :=
  (extractOffset_spec _).2 1 (-12) (by with_unfolding_all decide)
    (fun j hj => by interval_cases j; with_unfolding_all decide)

/-! ## Active-line lookup (C5) -/

theorem findActiveGo_spec (l : List LyricsLine) (t : ℚ) :
    ∀ k : ℕ,
      (findActiveGo l t k = -1 ↔ ∀ i, i < k → t < (l.getD i dLine).time) ∧
      (∀ j : ℕ, findActiveGo l t k = (j : ℤ) ↔
        j < k ∧ (l.getD j dLine).time ≤ t ∧
          ∀ i, j < i → i < k → t < (l.getD i dLine).time) := by
  intro k
  induction k with
  | zero =>
    refine ⟨by simp [findActiveGo], fun j => ?_⟩
    unfold findActiveGo
    constructor
    · intro h
      exact absurd h (by omega)
    · intro h
      omega
  | succ k ih =>
    unfold findActiveGo
    by_cases hk : (l.getD k dLine).time ≤ t
    · rw [if_pos hk]
      constructor
      · constructor
        · intro h
          exact absurd h (by omega)
        · intro h
          exact absurd (h k (by omega)) (not_lt.mpr hk)
      · intro j
        constructor
        · intro h
          have hjk : j = k := by omega
          subst hjk
          exact ⟨by omega, hk, fun i h1 h2 => by omega⟩
        · rintro ⟨h1, h2, h3⟩
          have : j = k := by
            by_contra hne
            exact absurd hk (not_le.mpr (h3 k (by omega) (by omega)))
          omega
    · rw [if_neg hk]
      have ht : t < (l.getD k dLine).time := not_le.mp hk
      constructor
      · rw [(ih).1]
        constructor
        · intro h i hi
          rcases Nat.lt_succ_iff_lt_or_eq.mp hi with hi | hi
          · exact h i hi
          · subst hi; exact ht
        · intro h i hi
          exact h i (by omega)
      · intro j
        rw [(ih).2 j]
        constructor
        · rintro ⟨h1, h2, h3⟩
          refine ⟨by omega, h2, fun i hji hik => ?_⟩
          rcases Nat.lt_succ_iff_lt_or_eq.mp hik with hik | hik
          · exact h3 i hji hik
          · subst hik; exact ht
        · rintro ⟨h1, h2, h3⟩
          have hjk : j ≠ k := by
            intro he
            subst he
            exact absurd h2 hk
          exact ⟨by omega, h2, fun i hji hik => h3 i hji (by omega)⟩

/-- C5: for a list sorted ascending by time, `findActiveLine` returns −1
exactly when the list is empty or the current time precedes every line (in
particular when it precedes the head), and it returns index `j` exactly when
`j` is the largest index whose time is at most the current time (hence the
last of several equal-timestamp lines, and the last index whenever the last
line has started). -/
theorem findActiveLine_spec (l : List LyricsLine) (t : ℚ)
    (hs : List.Pairwise (fun a b => a.time ≤ b.time) l) :
    (findActiveLine l t = -1 ↔ ∀ e ∈ l, t < e.time) ∧
    (∀ j : ℕ, j < l.length →
      (findActiveLine l t = (j : ℤ) ↔
        (l.getD j dLine).time ≤ t ∧
          ∀ i, j < i → i < l.length → t < (l.getD i dLine).time)) ∧
    (l ≠ [] → t < (l.getD 0 dLine).time → findActiveLine l t = -1) ∧
    (l ≠ [] → (l.getD (l.length - 1) dLine).time ≤ t →
      findActiveLine l t = ((l.length - 1 : ℕ) : ℤ)) := by
  have hmem : (∀ i, i < l.length → t < (l.getD i dLine).time) ↔ ∀ e ∈ l, t < e.time := by
    constructor
    · intro h e he
      obtain ⟨i, hi, rfl⟩ := List.mem_iff_getElem.mp he
      have := h i hi
      rwa [List.getD_eq_getElem l dLine hi] at this
    · intro h i hi
      rw [List.getD_eq_getElem l dLine hi]
      exact h _ (List.getElem_mem hi)
  unfold findActiveLine
  by_cases hl : l = []
  · subst hl
    refine ⟨by simp, ?_, by simp, by simp⟩
    intro j hj
    exact absurd hj (by simp)
  · rw [if_neg hl]
    refine ⟨((findActiveGo_spec l t l.length).1).trans hmem, ?_, ?_, ?_⟩
    · intro j hj
      rw [(findActiveGo_spec l t l.length).2 j]
      constructor
      · rintro ⟨-, h2, h3⟩
        exact ⟨h2, h3⟩
      · rintro ⟨h2, h3⟩
        exact ⟨hj, h2, h3⟩
    · intro _ h0
      rw [(findActiveGo_spec l t l.length).1, hmem]
      intro e he
      obtain ⟨i, hi, rfl⟩ := List.mem_iff_getElem.mp he
      calc t < (l.getD 0 dLine).time := h0
        _ ≤ l[i].time := by
          rcases Nat.eq_zero_or_pos i with hi0 | hi0
          · subst hi0
            rw [List.getD_eq_getElem l dLine hi]
          · have h0len : 0 < l.length := by omega
            rw [List.getD_eq_getElem l dLine h0len]
            exact List.pairwise_iff_getElem.mp hs 0 i h0len hi hi0
    · intro _ hlast
      rw [(findActiveGo_spec l t l.length).2 (l.length - 1)]
      have hlen : 0 < l.length := List.length_pos.mpr hl
      exact ⟨by omega, hlast, fun i h1 h2 => by omega⟩

/-- C5 witness: on the sorted list with times 1, 2, 2, 3 and current time 2
the largest qualifying index is 2 — the last of the two equal-timestamp
lines. -/
theorem findActiveLine_spec_witness :
    findActiveLine [⟨1, []⟩, ⟨2, []⟩, ⟨2, []⟩, ⟨3, []⟩] 2 = 2 :=
  ((findActiveLine_spec [⟨1, []⟩, ⟨2, []⟩, ⟨2, []⟩, ⟨3, []⟩] 2
      (by with_unfolding_all decide)).2.1 2 (by norm_num)).mpr
    ⟨by with_unfolding_all decide,
     fun i h1 h2 => by
      simp only [List.length_cons, List.length_nil] at h2
      interval_cases i
      · with_unfolding_all decide⟩

/-! ## The stable sort of `parseLrcLyrics` (C4) -/

theorem mem_insertLine {x y : LyricsLine} {l : List LyricsLine} :
    y ∈ insertLine x l ↔ y = x ∨ y ∈ l := by
  induction l with
  | nil => simp [insertLine]
  | cons a t ih =>
    unfold insertLine
    split <;> simp only [List.mem_cons, ih] <;> tauto

theorem insertLine_pairwise {x : LyricsLine} {l : List LyricsLine}
    (h : List.Pairwise (fun a b => a.time ≤ b.time) l) :
    List.Pairwise (fun a b => a.time ≤ b.time) (insertLine x l) := by
  induction l with
  | nil => simp [insertLine]
  | cons a t ih =>
    rw [List.pairwise_cons] at h
    unfold insertLine
    split
    · rename_i hxa
      rw [List.pairwise_cons]
      refine ⟨?_, List.pairwise_cons.mpr h⟩
      intro b hb
      rcases List.mem_cons.mp hb with rfl | hb
      · exact le_of_lt hxa
      · exact (le_of_lt hxa).trans (h.1 b hb)
    · rename_i hxa
      rw [List.pairwise_cons]
      refine ⟨?_, ih h.2⟩
      intro b hb
      rcases mem_insertLine.mp hb with rfl | hb
      · exact not_lt.mp hxa
      · exact h.1 b hb

theorem foldl_insertLine_pairwise (l : List LyricsLine) :
    ∀ acc, List.Pairwise (fun a b => a.time ≤ b.time) acc →
      List.Pairwise (fun a b => a.time ≤ b.time)
        (l.foldl (fun acc x => insertLine x acc) acc) := by
  induction l with
  | nil => exact fun acc h => h
  | cons x xs ih =>
    intro acc h
    exact ih (insertLine x acc) (insertLine_pairwise h)

theorem sortLines_pairwise (l : List LyricsLine) :
    List.Pairwise (fun a b => a.time ≤ b.time) (sortLines l) :=
  foldl_insertLine_pairwise l [] (by simp)

theorem mem_foldl_insertLine {y : LyricsLine} (l : List LyricsLine) :
    ∀ acc, y ∈ l.foldl (fun acc x => insertLine x acc) acc ↔ y ∈ acc ∨ y ∈ l := by
  induction l with
  | nil => simp
  | cons x xs ih =>
    intro acc
    rw [List.foldl_cons, ih (insertLine x acc), mem_insertLine]
    simp only [List.mem_cons]
    tauto

theorem mem_sortLines {y : LyricsLine} {l : List LyricsLine} :
    y ∈ sortLines l ↔ y ∈ l := by
  unfold sortLines
  rw [mem_foldl_insertLine]
  simp

theorem filter_insertLine (x : LyricsLine) (t₀ : ℚ) {l : List LyricsLine}
    (h : List.Pairwise (fun a b => a.time ≤ b.time) l) :
    (insertLine x l).filter (fun e => e.time = t₀) =
      if x.time = t₀ then l.filter (fun e => e.time = t₀) ++ [x]
      else l.filter (fun e => e.time = t₀) := by
  induction l with
  | nil =>
    unfold insertLine
    by_cases hx : x.time = t₀ <;> simp [hx, List.filter_cons]
  | cons a t ih =>
    rw [List.pairwise_cons] at h
    unfold insertLine
    split
    · rename_i hxa
      by_cases hx : x.time = t₀
      · rw [if_pos hx]
        have hfilter : (a :: t).filter (fun e => e.time = t₀) = [] := by
          rw [List.filter_eq_nil_iff]
          intro b hb
          have hab : a.time ≤ b.time := by
            rcases List.mem_cons.mp hb with rfl | hb
            · exact le_refl _
            · exact h.1 b hb
          have : t₀ < b.time := lt_of_lt_of_le (hx ▸ hxa) hab
          simp only [decide_eq_true_eq]
          exact fun he => absurd he (ne_of_gt this)
        rw [hfilter, List.filter_cons, hfilter]
        simp [hx]
      · rw [if_neg hx]
        rw [List.filter_cons]
        simp [hx]
    · rename_i hxa
      rw [List.filter_cons, List.filter_cons, ih h.2]
      by_cases ha : a.time = t₀ <;> by_cases hx : x.time = t₀ <;>
        simp [ha, hx]

theorem foldl_insertLine_filter (t₀ : ℚ) (l : List LyricsLine) :
    ∀ acc, List.Pairwise (fun a b => a.time ≤ b.time) acc →
      (l.foldl (fun acc x => insertLine x acc) acc).filter (fun e => e.time = t₀)
        = acc.filter (fun e => e.time = t₀) ++ l.filter (fun e => e.time = t₀) := by
  induction l with
  | nil => simp
  | cons x xs ih =>
    intro acc h
    rw [List.foldl_cons, ih (insertLine x acc) (insertLine_pairwise h),
      filter_insertLine x t₀ h, List.filter_cons]
    by_cases hx : x.time = t₀ <;> simp [hx]

/-- The stable-sort law for the sort of `parseLrcLyrics`: for every time
value, filtering the sorted output yields the equal-time entries in their
original encounter order. -/
theorem sortLines_filter (t₀ : ℚ) (l : List LyricsLine) :
    (sortLines l).filter (fun e => e.time = t₀) = l.filter (fun e => e.time = t₀) := by
  unfold sortLines
  rw [foldl_insertLine_filter t₀ l [] (by simp)]
  rfl

theorem insertLine_append {x : LyricsLine} {acc : List LyricsLine}
    (h : ∀ y ∈ acc, y.time ≤ x.time) : insertLine x acc = acc ++ [x] := by
  induction acc with
  | nil => rfl
  | cons a t ih =>
    unfold insertLine
    rw [if_neg (not_lt.mpr (h a (by simp)))]
    rw [ih fun y hy => h y (by simp [hy])]
    rfl

theorem foldl_insertLine_of_pairwise (l : List LyricsLine) :
    ∀ acc, List.Pairwise (fun a b => a.time ≤ b.time) (acc ++ l) →
      l.foldl (fun acc x => insertLine x acc) acc = acc ++ l := by
  induction l with
  | nil => simp
  | cons x xs ih =>
    intro acc h
    have hx : ∀ y ∈ acc, y.time ≤ x.time := by
      intro y hy
      exact (List.pairwise_append.mp h).2.2 y hy x (by simp)
    rw [List.foldl_cons, insertLine_append hx, ih (acc ++ [x]) (by simpa using h)]
    simp

/-- A list already sorted ascending by time is left unchanged by the sort. -/
theorem sortLines_of_pairwise {l : List LyricsLine}
    (h : List.Pairwise (fun a b => a.time ≤ b.time) l) : sortLines l = l := by
  unfold sortLines
  rw [foldl_insertLine_of_pairwise l [] (by simpa using h)]
  rfl

theorem ratOfGroup2_nonneg (g : List Char) : 0 ≤ ratOfGroup2 g := by
  unfold ratOfGroup2
  split
  · positivity
  · positivity

theorem lineEntries_shape {line : List Char} (h : jsTrim (removeMeta line) ≠ []) :
    lineEntries line = (tsMatches line).map
      (fun m => ⟨(digitsVal m.1 : ℚ) * 60 + ratOfGroup2 m.2, jsTrim (removeTs line)⟩) := by
  unfold lineEntries
  rw [if_neg h]
  cases hts : tsMatches line with
  | nil => rfl
  | cons a t => rfl

theorem lineEntries_time_nonneg {line : List Char} :
    ∀ e ∈ lineEntries line, 0 ≤ e.time := by
  intro e he
  unfold lineEntries at he
  split at he
  · exact absurd he (by simp)
  · rename_i hts
    cases hm : tsMatches line with
    | nil => rw [hm] at he; exact absurd he (by simp)
    | cons a t =>
      rw [hm] at he
      obtain ⟨m, -, rfl⟩ := List.mem_map.mp he
      have h1 : (0 : ℚ) ≤ (digitsVal m.1 : ℚ) * 60 := by positivity
      have h2 := ratOfGroup2_nonneg m.2
      simp only
      linarith

/-- C4 (amended): for every input string the parsed output is sorted
ascending by time; every emitted time is non-negative; ties preserve
encounter order (for each time value, filtering the output returns exactly
the pre-sort entries of that time, in order — the stable-sort law); and every
physical source line whose metadata-stripped trim is non-empty contributes
exactly one entry per timestamp tag it carries, all sharing the line's
timestamp-stripped, trimmed text. -/
theorem parseLrc_sorted_stable (s : List Char) :
    List.Pairwise (fun a b => a.time ≤ b.time) (parseLrcLyrics s) ∧
    (∀ e ∈ parseLrcLyrics s, 0 ≤ e.time) ∧
    (∀ t₀ : ℚ, (parseLrcLyrics s).filter (fun e => e.time = t₀)
        = (rawEntries s).filter (fun e => e.time = t₀)) ∧
    (∀ line ∈ splitNl s, jsTrim (removeMeta line) ≠ [] →
      (lineEntries line).length = (tsMatches line).length ∧
      ∀ e ∈ lineEntries line, e.text = jsTrim (removeTs line)) := by
  have hline : ∀ line ∈ splitNl s, jsTrim (removeMeta line) ≠ [] →
      (lineEntries line).length = (tsMatches line).length ∧
      ∀ e ∈ lineEntries line, e.text = jsTrim (removeTs line) := by
    intro line _ h
    rw [lineEntries_shape h]
    refine ⟨List.length_map _ _, ?_⟩
    intro e he
    obtain ⟨m, -, rfl⟩ := List.mem_map.mp he
    rfl
  unfold parseLrcLyrics
  split
  · rename_i hs
    subst hs
    refine ⟨by simp, by simp, ?_, hline⟩
    intro t₀
    have : rawEntries ([] : List Char) = [] := by with_unfolding_all decide
    rw [this]
  · refine ⟨sortLines_pairwise _, ?_, fun t₀ => sortLines_filter t₀ _, hline⟩
    intro e he
    rw [mem_sortLines] at he
    unfold rawEntries at he
    obtain ⟨line, -, hmem⟩ := List.mem_flatMap.mp he
    exact lineEntries_time_nonneg e hmem

/-- C4 witness: the two-timestamp line of the specification's own example
contributes exactly two entries. -/
theorem parseLrc_sorted_stable_witness :
    (lineEntries (("[00:05.00][00:03.00]Same text").toList)).length
      = (tsMatches (("[00:05.00][00:03.00]Same text").toList)).length :=
  ((parseLrc_sorted_stable (("[00:05.00][00:03.00]Same text").toList)).2.2.2
    (("[00:05.00][00:03.00]Same text").toList)
    (by with_unfolding_all decide) (by with_unfolding_all decide)).1

/-! ## Split / join inverse lemmas (for C9) -/

theorem splitNl_ne_nil (s : List Char) : splitNl s ≠ [] := by
  induction s with
  | nil => simp [splitNl]
  | cons c cs ih =>
    obtain ⟨a, t, h⟩ : ∃ a t, splitNl cs = a :: t := by
      cases hh : splitNl cs with
      | nil => exact absurd hh ih
      | cons a t => exact ⟨a, t, rfl⟩
    unfold splitNl
    rw [h]
    dsimp only
    split <;> simp

theorem splitNl_no_nl {s : List Char} (h : '\n' ∉ s) : splitNl s = [s] := by
  induction s with
  | nil => rfl
  | cons c cs ih =>
    unfold splitNl
    rw [ih fun hc => h (List.mem_cons_of_mem c hc)]
    dsimp only
    rw [if_neg fun hc : c = '\n' => h (hc ▸ List.mem_cons_self c cs)]

theorem splitNl_append {a : List Char} (r : List Char) (ha : '\n' ∉ a) :
    splitNl (a ++ '\n' :: r) = a :: splitNl r := by
  induction a with
  | nil =>
    obtain ⟨x, t, h⟩ : ∃ x t, splitNl r = x :: t := by
      cases hh : splitNl r with
      | nil => exact absurd hh (splitNl_ne_nil r)
      | cons x t => exact ⟨x, t, rfl⟩
    show splitNl ('\n' :: r) = [] :: splitNl r
    conv_lhs => rw [splitNl]
    rw [h]
    dsimp only
    rw [if_pos rfl]
  | cons c cs ih =>
    have hc : c ≠ '\n' := fun hcn => ha (hcn ▸ List.mem_cons_self c cs)
    have hcs : '\n' ∉ cs := fun h2 => ha (List.mem_cons_of_mem c h2)
    show splitNl (c :: (cs ++ '\n' :: r)) = (c :: cs) :: splitNl r
    conv_lhs => rw [splitNl]
    rw [ih hcs]
    dsimp only
    rw [if_neg hc]

theorem splitNl_joinNl {ls : List (List Char)} (hne : ls ≠ [])
    (h : ∀ l ∈ ls, '\n' ∉ l) : splitNl (joinNl ls) = ls := by
  induction ls with
  | nil => exact absurd rfl hne
  | cons a t ih =>
    cases t with
    | nil => exact splitNl_no_nl (h a (by simp))
    | cons b u =>
      show splitNl (a ++ '\n' :: joinNl (b :: u)) = a :: b :: u
      rw [splitNl_append _ (h a (by simp))]
      rw [ih (by simp) fun l hl => h l (List.mem_cons_of_mem a hl)]

/-! ## Trim lemmas (for C9) -/

theorem head_false_of_dropWhile_self {p : Char → Bool} {d : Char} {ds : List Char}
    (h : List.dropWhile p (d :: ds) = d :: ds) : p d = false := by
  by_contra hp
  rw [Bool.not_eq_false] at hp
  rw [List.dropWhile_cons, if_pos hp] at h
  have := congrArg List.length h
  have hle := (List.dropWhile_sublist (l := ds) p).length_le
  simp only [List.length_cons] at this
  omega

theorem ltrim_eq_of_trimmed {s : List Char} (h : jsTrim s = s) :
    s.dropWhile isWs = s := by
  have hsub : (s.dropWhile isWs).Sublist s := List.dropWhile_sublist _
  refine hsub.eq_of_length ?_
  have h1 : (jsTrim s).length ≤ (s.dropWhile isWs).length := by
    unfold jsTrim
    calc ((s.dropWhile isWs).reverse.dropWhile isWs).reverse.length
        = ((s.dropWhile isWs).reverse.dropWhile isWs).length := List.length_reverse _
      _ ≤ (s.dropWhile isWs).reverse.length := (List.dropWhile_sublist _).length_le
      _ = (s.dropWhile isWs).length := List.length_reverse _
  have h2 := (List.dropWhile_sublist (l := s) isWs).length_le
  rw [h] at h1
  omega

theorem rev_dropWhile_eq_of_trimmed {s : List Char} (h : jsTrim s = s) :
    s.reverse.dropWhile isWs = s.reverse := by
  have hl := ltrim_eq_of_trimmed h
  have h2 : jsTrim s = (s.reverse.dropWhile isWs).reverse := by
    unfold jsTrim
    rw [hl]
  rw [h] at h2
  calc s.reverse.dropWhile isWs
      = (s.reverse.dropWhile isWs).reverse.reverse := (List.reverse_reverse _).symm
    _ = s.reverse := by rw [← h2]

theorem jsTrim_eq_self_of {s : List Char} (h1 : s.dropWhile isWs = s)
    (h2 : s.reverse.dropWhile isWs = s.reverse) : jsTrim s = s := by
  unfold jsTrim
  rw [h1, h2, List.reverse_reverse]

theorem dropWhile_cons_of_false {d : Char} {ds : List Char} (hd : isWs d = false) :
    List.dropWhile isWs (d :: ds) = d :: ds := by
  rw [List.dropWhile_cons, if_neg (by simp [hd])]

/-! ## Digit and decimal-rendering lemmas (for C9) -/

theorem digitChar_spec (d : ℕ) (h : d < 10) :
    (digitChar d).isDigit = true ∧ (digitChar d).toNat - 48 = d ∧
    digitChar d ≠ '[' ∧ digitChar d ≠ '\n' ∧ isWs (digitChar d) = false ∧
    digitChar d ≠ 't' ∧ digitChar d ≠ 'a' ∧ digitChar d ≠ 'b' ∧ digitChar d ≠ 'o' := by
  interval_cases d <;> exact ⟨rfl, rfl, by decide, by decide, by decide,
    by decide, by decide, by decide, by decide⟩

theorem ne_lit_of_isDigit {d : Char} (h : d.isDigit = true) :
    d ≠ 't' ∧ d ≠ 'a' ∧ d ≠ 'b' ∧ d ≠ 'o' := by
  refine ⟨?_, ?_, ?_, ?_⟩ <;> (rintro rfl; exact absurd h (by decide))

theorem natToChars_small {n : ℕ} (h : n < 10) : natToChars n = [digitChar n] := by
  unfold natToChars
  cases n with
  | zero => rfl
  | succ m => rw [natToCharsGo, if_pos h]

theorem natToChars_two {n : ℕ} (h1 : 10 ≤ n) (h2 : n < 100) :
    natToChars n = [digitChar (n / 10), digitChar (n % 10)] := by
  unfold natToChars
  obtain ⟨m, rfl⟩ : ∃ m, n = m + 1 := ⟨n - 1, by omega⟩
  rw [natToCharsGo, if_neg (by omega)]
  have hd : (m + 1) / 10 < 10 := by omega
  obtain ⟨k, rfl⟩ : ∃ k, m = k + 1 := ⟨m - 1, by omega⟩
  rw [natToCharsGo, if_pos hd]
  rfl

theorem padTwo {n : ℕ} (h : n < 100) :
    padStart2 (intToChars (n : ℤ)) = [digitChar (n / 10), digitChar (n % 10)] := by
  have hcast : intToChars (n : ℤ) = natToChars n := by
    unfold intToChars
    rw [if_neg (by omega)]
    congr 1
  rw [hcast]
  by_cases h10 : n < 10
  · rw [natToChars_small h10]
    have h0 : n / 10 = 0 := by omega
    have hm : n % 10 = n := by omega
    rw [h0, hm]
    rfl
  · rw [natToChars_two (by omega) h]
    rfl

theorem digitsVal_pair {x y : ℕ} (hx : x < 10) (hy : y < 10) :
    digitsVal [digitChar x, digitChar y] = 10 * x + y := by
  unfold digitsVal
  simp only [List.foldl_cons, List.foldl_nil]
  rw [(digitChar_spec x hx).2.1, (digitChar_spec y hy).2.1]
  ring_nf

/-! ## Exact floor / remainder arithmetic on centisecond times (for C9) -/

theorem qfloor_nat_div (a b : ℕ) (hb : 0 < b) :
    ⌊(a : ℚ) / (b : ℚ)⌋ = ((a / b : ℕ) : ℤ) := by
  have hbq : (0 : ℚ) < (b : ℚ) := by exact_mod_cast hb
  rw [Int.floor_eq_iff]
  constructor
  · rw [le_div_iff hbq]
    exact_mod_cast Nat.div_mul_le_self a b
  · rw [div_lt_iff hbq]
    have h1 : a % b < b := Nat.mod_lt a hb
    have h2 : b * (a / b) + a % b = a := Nat.div_add_mod a b
    have h3 : a < (a / b + 1) * b := by
      calc a = b * (a / b) + a % b := h2.symm
        _ < b * (a / b) + b := by omega
        _ = (a / b + 1) * b := by ring
    exact_mod_cast h3

theorem ratTrunc_of_nonneg {q : ℚ} (h : 0 ≤ q) : ratTrunc q = ⌊q⌋ :=
  if_pos h

theorem centi_arith (k : ℕ) (hk : k < 600000) :
    ⌊((k : ℚ) / 100) / 60⌋ = ((k / 6000 : ℕ) : ℤ) ∧
    jsMod ((k : ℚ) / 100) 60 = ((k % 6000 : ℕ) : ℚ) / 100 ∧
    ⌊((k % 6000 : ℕ) : ℚ) / 100⌋ = (((k % 6000) / 100 : ℕ) : ℤ) ∧
    jsMod ((k : ℚ) / 100) 1 * 100 = ((k % 100 : ℕ) : ℚ) ∧
    ⌊((k % 100 : ℕ) : ℚ) * 100 / 100⌋ = ((k % 100 : ℕ) : ℤ) := by
  have hdiv : ((k : ℚ) / 100) / 60 = (k : ℚ) / 6000 := by ring
  have h1 : ⌊((k : ℚ) / 100) / 60⌋ = ((k / 6000 : ℕ) : ℤ) := by
    rw [hdiv]
    exact qfloor_nat_div k 6000 (by norm_num)
  have hmod1 : jsMod ((k : ℚ) / 100) 60 = ((k % 6000 : ℕ) : ℚ) / 100 := by
    unfold jsMod
    rw [ratTrunc_of_nonneg (by positivity), h1, Int.cast_natCast]
    have hk2 : (k : ℚ) = 6000 * ((k / 6000 : ℕ) : ℚ) + ((k % 6000 : ℕ) : ℚ) := by
      exact_mod_cast (Nat.div_add_mod k 6000).symm
    rw [hk2]
    ring
  have h2 : ⌊((k % 6000 : ℕ) : ℚ) / 100⌋ = (((k % 6000) / 100 : ℕ) : ℤ) :=
    qfloor_nat_div (k % 6000) 100 (by norm_num)
  have hfloor : ⌊(k : ℚ) / 100⌋ = ((k / 100 : ℕ) : ℤ) :=
    qfloor_nat_div k 100 (by norm_num)
  have hmod2 : jsMod ((k : ℚ) / 100) 1 * 100 = ((k % 100 : ℕ) : ℚ) := by
    unfold jsMod
    rw [div_one, ratTrunc_of_nonneg (by positivity), hfloor, Int.cast_natCast]
    have hk2 : (k : ℚ) = 100 * ((k / 100 : ℕ) : ℚ) + ((k % 100 : ℕ) : ℚ) := by
      exact_mod_cast (Nat.div_add_mod k 100).symm
    rw [hk2]
    ring
  refine ⟨h1, hmod1, h2, hmod2, ?_⟩
  rw [mul_div_assoc]
  norm_num

theorem formatLyricsTime_eq (k : ℕ) (hk : k < 600000) :
    formatLyricsTime ((k : ℚ) / 100) =
      [digitChar (k / 6000 / 10), digitChar (k / 6000 % 10), ':',
       digitChar ((k % 6000) / 100 / 10), digitChar ((k % 6000) / 100 % 10), '.',
       digitChar (k % 100 / 10), digitChar (k % 100 % 10)] := by
  obtain ⟨h1, hmod1, h2, hmod2, -⟩ := centi_arith k hk
  unfold formatLyricsTime
  rw [h1, hmod1, h2, hmod2, Int.floor_natCast]
  rw [padTwo (show k / 6000 < 100 by omega),
    padTwo (show (k % 6000) / 100 < 100 by omega),
    padTwo (show k % 100 < 100 by omega)]
  rfl

/-! ## Parsing a freshly formatted `[mm:ss.ff]text` line (for C9) -/

theorem takeDigits_two {c1 c2 : Char} (rest : List Char)
    (h1 : c1.isDigit = true) (h2 : c2.isDigit = true) :
    takeDigits (c1 :: c2 :: ']' :: rest) = ([c1, c2], ']' :: rest) := by
  have h3 : (']').isDigit = false := rfl
  simp [takeDigits, h1, h2, h3]

theorem matchTsTail_fmt {b1 b2 c1 c2 : Char} {text : List Char}
    (hb1 : b1.isDigit = true) (hb2 : b2.isDigit = true)
    (hc1 : c1.isDigit = true) (hc2 : c2.isDigit = true) :
    matchTsTail (b1 :: b2 :: '.' :: c1 :: c2 :: ']' :: text)
      = some ([b1, b2, '.', c1, c2], 6) := by
  unfold matchTsTail
  simp [hb1, hb2, takeDigits_two text hc1 hc2]

theorem matchTsAt_fmt {a1 a2 b1 b2 c1 c2 : Char} {text : List Char}
    (ha1 : a1.isDigit = true) (ha2 : a2.isDigit = true)
    (hb1 : b1.isDigit = true) (hb2 : b2.isDigit = true)
    (hc1 : c1.isDigit = true) (hc2 : c2.isDigit = true) :
    matchTsAt ('[' :: a1 :: a2 :: ':' :: b1 :: b2 :: '.' :: c1 :: c2 :: ']' :: text)
      = some ([a1, a2], [b1, b2, '.', c1, c2], 10) := by
  unfold matchTsAt
  simp [ha1, ha2, matchTsTail_fmt hb1 hb2 hc1 hc2]

theorem tryTag_head_ne {l0 : Char} {ls rest : List Char} {d : Char} (h : l0 ≠ d) :
    tryTag (l0 :: ls) (d :: rest) = none := by
  unfold tryTag
  have hd : dropLit ((l0 :: ls) ++ [':']) (d :: rest) = none := by
    show dropLit (l0 :: (ls ++ [':'])) (d :: rest) = none
    unfold dropLit
    rw [if_neg h]
  rw [hd]

theorem metaMatchAt_lbrack_digit {d : Char} {rest : List Char}
    (hd : d.isDigit = true) : metaMatchAt ('[' :: d :: rest) = none := by
  obtain ⟨ht, ha, hb, ho⟩ := ne_lit_of_isDigit hd
  rw [metaMatchAt]
  rw [tryTag_head_ne (Ne.symm ht), tryTag_head_ne (Ne.symm ha),
    tryTag_head_ne (Ne.symm ha), tryTag_head_ne (Ne.symm hb),
    tryTag_head_ne (Ne.symm ho)]
  rfl

theorem digit_ne_lbrack {d : Char} (h : d.isDigit = true) : d ≠ '[' := by
  rintro rfl
  exact absurd h (by decide)

theorem removeMeta_fmt {a1 a2 b1 b2 c1 c2 : Char} {text : List Char}
    (ha1 : a1.isDigit = true) (ha2 : a2.isDigit = true)
    (hb1 : b1.isDigit = true) (hb2 : b2.isDigit = true)
    (hc1 : c1.isDigit = true) (hc2 : c2.isDigit = true)
    (htext : ∀ i, metaMatchAt (text.drop i) = none) :
    removeMeta ('[' :: a1 :: a2 :: ':' :: b1 :: b2 :: '.' :: c1 :: c2 :: ']' :: text)
      = '[' :: a1 :: a2 :: ':' :: b1 :: b2 :: '.' :: c1 :: c2 :: ']' :: text := by
  rw [removeMeta_cons_none (metaMatchAt_lbrack_digit ha1),
    removeMeta_cons_none (metaMatchAt_none_of_ne (digit_ne_lbrack ha1)),
    removeMeta_cons_none (metaMatchAt_none_of_ne (digit_ne_lbrack ha2)),
    removeMeta_cons_none (metaMatchAt_none_of_ne (by decide : (':') ≠ '[')),
    removeMeta_cons_none (metaMatchAt_none_of_ne (digit_ne_lbrack hb1)),
    removeMeta_cons_none (metaMatchAt_none_of_ne (digit_ne_lbrack hb2)),
    removeMeta_cons_none (metaMatchAt_none_of_ne (by decide : ('.') ≠ '[')),
    removeMeta_cons_none (metaMatchAt_none_of_ne (digit_ne_lbrack hc1)),
    removeMeta_cons_none (metaMatchAt_none_of_ne (digit_ne_lbrack hc2)),
    removeMeta_cons_none (metaMatchAt_none_of_ne (by decide : (']') ≠ '[')),
    removeMeta_eq_self htext]

theorem tsMatches_fmt {a1 a2 b1 b2 c1 c2 : Char} {text : List Char}
    (ha1 : a1.isDigit = true) (ha2 : a2.isDigit = true)
    (hb1 : b1.isDigit = true) (hb2 : b2.isDigit = true)
    (hc1 : c1.isDigit = true) (hc2 : c2.isDigit = true)
    (htext : ∀ i, matchTsAt (text.drop i) = none) :
    tsMatches ('[' :: a1 :: a2 :: ':' :: b1 :: b2 :: '.' :: c1 :: c2 :: ']' :: text)
      = [([a1, a2], [b1, b2, '.', c1, c2])] := by
  rw [tsMatches_cons_some (matchTsAt_fmt ha1 ha2 hb1 hb2 hc1 hc2)]
  rw [show ('[' :: a1 :: a2 :: ':' :: b1 :: b2 :: '.' :: c1 :: c2 :: ']' :: text).drop 10
      = text from rfl]
  rw [tsMatches_eq_nil htext]

theorem removeTs_fmt {a1 a2 b1 b2 c1 c2 : Char} {text : List Char}
    (ha1 : a1.isDigit = true) (ha2 : a2.isDigit = true)
    (hb1 : b1.isDigit = true) (hb2 : b2.isDigit = true)
    (hc1 : c1.isDigit = true) (hc2 : c2.isDigit = true)
    (htext : ∀ i, matchTsAt (text.drop i) = none) :
    removeTs ('[' :: a1 :: a2 :: ':' :: b1 :: b2 :: '.' :: c1 :: c2 :: ']' :: text)
      = text := by
  rw [removeTs_cons_some (matchTsAt_fmt ha1 ha2 hb1 hb2 hc1 hc2)]
  rw [show ('[' :: a1 :: a2 :: ':' :: b1 :: b2 :: '.' :: c1 :: c2 :: ']' :: text).drop 10
      = text from rfl]
  exact removeTs_eq_self htext

theorem jsTrim_fmt {a1 a2 b1 b2 c1 c2 : Char} {text : List Char}
    (hw1 : isWs a1 = false) (hw2 : isWs a2 = false)
    (hw3 : isWs b1 = false) (hw4 : isWs b2 = false)
    (hw5 : isWs c1 = false) (hw6 : isWs c2 = false)
    (htrim : jsTrim text = text) :
    jsTrim ('[' :: a1 :: a2 :: ':' :: b1 :: b2 :: '.' :: c1 :: c2 :: ']' :: text)
      = '[' :: a1 :: a2 :: ':' :: b1 :: b2 :: '.' :: c1 :: c2 :: ']' :: text := by
  apply jsTrim_eq_self_of
  · exact dropWhile_cons_of_false (by decide)
  · have hmain : ('[' :: a1 :: a2 :: ':' :: b1 :: b2 :: '.' :: c1 :: c2 :: ']' :: text).reverse
        = text.reverse ++ [']', c2, c1, '.', b2, b1, ':', a2, a1, '['] := by
      simp
    rw [hmain]
    cases hrev : text.reverse with
    | nil =>
      rw [List.nil_append]
      exact dropWhile_cons_of_false (by decide)
    | cons d ds =>
      have hdw := rev_dropWhile_eq_of_trimmed htrim
      rw [hrev] at hdw
      have hd : isWs d = false := head_false_of_dropWhile_self hdw
      rw [List.cons_append]
      exact dropWhile_cons_of_false hd

theorem ratOfGroup2_fmt {b1 b2 c1 c2 : ℕ} (hb1 : b1 < 10) (hb2 : b2 < 10)
    (hc1 : c1 < 10) (hc2 : c2 < 10) :
    ratOfGroup2 [digitChar b1, digitChar b2, '.', digitChar c1, digitChar c2]
      = ((10 * b1 + b2 : ℕ) : ℚ) + ((10 * c1 + c2 : ℕ) : ℚ) / 100 := by
  rw [ratOfGroup2]
  rw [digitsVal_pair hb1 hb2, digitsVal_pair hc1 hc2]
  norm_num

theorem time_reconstruct (k : ℕ) (hk : k < 600000) :
    ((10 * (k / 6000 / 10) + k / 6000 % 10 : ℕ) : ℚ) * 60
      + (((10 * ((k % 6000) / 100 / 10) + (k % 6000) / 100 % 10 : ℕ) : ℚ)
        + ((10 * (k % 100 / 10) + k % 100 % 10 : ℕ) : ℚ) / 100)
      = (k : ℚ) / 100 := by
  have e1 : 10 * (k / 6000 / 10) + k / 6000 % 10 = k / 6000 := by omega
  have e2 : 10 * ((k % 6000) / 100 / 10) + (k % 6000) / 100 % 10 = (k % 6000) / 100 := by
    omega
  have e3 : 10 * (k % 100 / 10) + k % 100 % 10 = k % 100 := by omega
  rw [e1, e2, e3]
  have key : 6000 * (k / 6000) + 100 * ((k % 6000) / 100) + k % 100 = k := by omega
  have kq : (k : ℚ) = 6000 * ((k / 6000 : ℕ) : ℚ)
      + 100 * (((k % 6000) / 100 : ℕ) : ℚ) + ((k % 100 : ℕ) : ℚ) := by
    exact_mod_cast key.symm
  rw [eq_div_iff (by norm_num : (100 : ℚ) ≠ 0), kq]
  ring

theorem lineEntries_fmt (e : LyricsLine) (k : ℕ) (hk : k < 600000)
    (htime : e.time = (k : ℚ) / 100)
    (htrim : jsTrim e.text = e.text)
    (hts : ∀ i, matchTsAt (e.text.drop i) = none)
    (hmeta : ∀ i, metaMatchAt (e.text.drop i) = none) :
    lineEntries ('[' :: (formatLyricsTime e.time ++ ']' :: e.text)) = [e] := by
  rw [htime, formatLyricsTime_eq k hk]
  simp only [List.cons_append, List.nil_append]
  have hd1 := digitChar_spec (k / 6000 / 10) (by omega)
  have hd2 := digitChar_spec (k / 6000 % 10) (by omega)
  have hd3 := digitChar_spec ((k % 6000) / 100 / 10) (by omega)
  have hd4 := digitChar_spec ((k % 6000) / 100 % 10) (by omega)
  have hd5 := digitChar_spec (k % 100 / 10) (by omega)
  have hd6 := digitChar_spec (k % 100 % 10) (by omega)
  have hmetaLine := removeMeta_fmt hd1.1 hd2.1 hd3.1 hd4.1 hd5.1 hd6.1 hmeta
  have htrimLine := jsTrim_fmt hd1.2.2.2.2.1 hd2.2.2.2.2.1 hd3.2.2.2.2.1
    hd4.2.2.2.2.1 hd5.2.2.2.2.1 hd6.2.2.2.2.1 htrim
  have htsLine := tsMatches_fmt hd1.1 hd2.1 hd3.1 hd4.1 hd5.1 hd6.1 hts
  have hremLine := removeTs_fmt hd1.1 hd2.1 hd3.1 hd4.1 hd5.1 hd6.1 hts
  unfold lineEntries
  rw [hmetaLine, htrimLine, if_neg (by simp), htsLine]
  dsimp only [List.map_cons, List.map_nil]
  rw [hremLine, htrim]
  rw [digitsVal_pair (by omega : k / 6000 / 10 < 10) (by omega : k / 6000 % 10 < 10)]
  rw [ratOfGroup2_fmt (by omega) (by omega) (by omega) (by omega)]
  rw [show ((10 * (k / 6000 / 10) + k / 6000 % 10 : ℕ) : ℚ) * 60
        + (((10 * ((k % 6000) / 100 / 10) + (k % 6000) / 100 % 10 : ℕ) : ℚ)
          + ((10 * (k % 100 / 10) + k % 100 % 10 : ℕ) : ℚ) / 100)
      = (k : ℚ) / 100 from time_reconstruct k hk]
  rw [← htime]

/-! ## Round trip (C9) -/

theorem flatMap_map_singleton {l : List LyricsLine} {f : LyricsLine → List Char}
    (h : ∀ e ∈ l, lineEntries (f e) = [e]) : (l.map f).flatMap lineEntries = l := by
  induction l with
  | nil => rfl
  | cons a t ih =>
    simp only [List.map_cons, List.flatMap_cons, h a (by simp)]
    rw [ih fun e he => h e (by simp [he])]
    rfl

theorem tsNone_of_bounded {s : List Char}
    (h : ∀ i < s.length, matchTsAt (s.drop i) = none) :
    ∀ i, matchTsAt (s.drop i) = none := by
  intro i
  by_cases hi : i < s.length
  · exact h i hi
  · rw [List.drop_eq_nil_of_le (by omega)]
    rfl

theorem metaNone_of_bounded {s : List Char}
    (h : ∀ i < s.length, metaMatchAt (s.drop i) = none) :
    ∀ i, metaMatchAt (s.drop i) = none := by
  intro i
  by_cases hi : i < s.length
  · exact h i hi
  · rw [List.drop_eq_nil_of_le (by omega)]
    rfl

/-- C9: round trip.  For every non-empty sequence of lyric lines sorted
ascending by time, in which each time is a non-negative multiple of 0.01
seconds below 6000 seconds and each text is trimmed, newline-free and free of
any occurrence of the timestamp or metadata patterns, re-encoding with
`toLrcFormat` (one `[mm:ss.ff]text` line per entry) and parsing with
`parseLrcLyrics` reproduces the sequence exactly.  Number arithmetic is
modelled exactly (rationals), per the file-level convention. -/
theorem parseLrc_toLrc_roundtrip (l : List LyricsLine) (hne : l ≠ [])
    (hsort : List.Pairwise (fun a b => a.time ≤ b.time) l)
    (hgood : ∀ e ∈ l, (∃ k : ℕ, e.time = (k : ℚ) / 100 ∧ k < 600000) ∧
      jsTrim e.text = e.text ∧ '\n' ∉ e.text ∧
      (∀ i, matchTsAt (e.text.drop i) = none) ∧
      (∀ i, metaMatchAt (e.text.drop i) = none)) :
    parseLrcLyrics (toLrcFormat l) = l := by
  have htoLrc : toLrcFormat l
      = joinNl (l.map fun e => '[' :: (formatLyricsTime e.time ++ ']' :: e.text)) := by
    unfold toLrcFormat
    rw [if_neg hne]
  have hnl : ∀ p ∈ (l.map fun e => '[' :: (formatLyricsTime e.time ++ ']' :: e.text)),
      '\n' ∉ p := by
    intro p hp
    obtain ⟨e, hel, rfl⟩ := List.mem_map.mp hp
    obtain ⟨⟨k, htime, hk⟩, htrim, hnl2, hts, hmeta⟩ := hgood e hel
    rw [htime, formatLyricsTime_eq k hk]
    intro hmem
    have hd1 := digitChar_spec (k / 6000 / 10) (by omega)
    have hd2 := digitChar_spec (k / 6000 % 10) (by omega)
    have hd3 := digitChar_spec ((k % 6000) / 100 / 10) (by omega)
    have hd4 := digitChar_spec ((k % 6000) / 100 % 10) (by omega)
    have hd5 := digitChar_spec (k % 100 / 10) (by omega)
    have hd6 := digitChar_spec (k % 100 % 10) (by omega)
    simp only [List.cons_append, List.nil_append, List.mem_cons, List.mem_append] at hmem
    rcases hmem with h | h | h | h | h | h | h | h | h | h | h
    · exact absurd h.symm (by decide)
    · exact absurd h.symm hd1.2.2.2.1
    · exact absurd h.symm hd2.2.2.2.1
    · exact absurd h.symm (by decide)
    · exact absurd h.symm hd3.2.2.2.1
    · exact absurd h.symm hd4.2.2.2.1
    · exact absurd h.symm (by decide)
    · exact absurd h.symm hd5.2.2.2.1
    · exact absurd h.symm hd6.2.2.2.1
    · exact absurd h.symm (by decide)
    · exact hnl2 h
  have hsplit : splitNl (toLrcFormat l)
      = l.map fun e => '[' :: (formatLyricsTime e.time ++ ']' :: e.text) := by
    rw [htoLrc]
    exact splitNl_joinNl (by simp [hne]) hnl
  have hentries : ∀ e ∈ l,
      lineEntries ('[' :: (formatLyricsTime e.time ++ ']' :: e.text)) = [e] := by
    intro e hel
    obtain ⟨⟨k, htime, hk⟩, htrim, hnl2, hts, hmeta⟩ := hgood e hel
    exact lineEntries_fmt e k hk htime htrim hts hmeta
  have hlrcne : toLrcFormat l ≠ [] := by
    rw [htoLrc]
    cases l with
    | nil => exact absurd rfl hne
    | cons a t =>
      cases t with
      | nil => simp [joinNl]
      | cons b u => simp [joinNl]
  unfold parseLrcLyrics
  rw [if_neg hlrcne]
  unfold rawEntries
  rw [hsplit, flatMap_map_singleton hentries, sortLines_of_pairwise hsort]

/-- C9 witness: the round trip re-parses the format of a concrete two-line
sequence (times 1s and 2.5s) to itself. -/
theorem parseLrc_toLrc_roundtrip_witness :
    parseLrcLyrics (toLrcFormat [⟨1, ("Hello").toList⟩, ⟨(5 : ℚ)/2, ("World").toList⟩])
      = [⟨1, ("Hello").toList⟩, ⟨(5 : ℚ)/2, ("World").toList⟩] := by
  apply parseLrc_toLrc_roundtrip
  · simp
  · with_unfolding_all decide
  · intro e he
    rcases List.mem_cons.mp he with rfl | he
    · refine ⟨⟨100, by norm_num, by norm_num⟩, by with_unfolding_all decide,
        by decide, tsNone_of_bounded ?_, metaNone_of_bounded ?_⟩
      · with_unfolding_all decide
      · with_unfolding_all decide
    · rcases List.mem_cons.mp he with rfl | he
      · refine ⟨⟨250, by norm_num, by norm_num⟩, by with_unfolding_all decide,
          by decide, tsNone_of_bounded ?_, metaNone_of_bounded ?_⟩
        · with_unfolding_all decide
        · with_unfolding_all decide
      · exact absurd he (by simp)

end Music45
